import Mathlib

/-!
Verification of the core of `streamlit_github_ppt_browser.py`:
the GitHub directory-URL parser, the PPT extension filter, the
single-level listing and the recursive stack-based directory walk.

Python strings are modelled as lists of characters (`Str`); the
GitHub contents API is modelled as a function from a requested path
to an HTTP response (`Str → Resp`), abstracting owner, repo, branch,
token and the HTTP transport, which the source threads through
unchanged into every request.  Both listing operations additionally
return the list of paths they requested, so that request-counting
properties can be stated.
-/

/-- Python `str`, modelled as a list of characters. -/
abbrev Str : Type := List Char

/-- Convenience: the character list of a Lean string literal. -/
def str (s : String) : Str := s.data

/-- Python `str.lower()` (ASCII letters; the recognized extensions are ASCII). -/
def pyLower (s : Str) : Str := s.map Char.toLower

/-- Python `str.endswith(suffixStr)` for a single candidate. -/
def pyEndsWith (s suffixStr : Str) : Bool := suffixStr.isSuffixOf s

/-- Python `str.split(sep)` for a one-character separator. -/
def pySplit (sep : Char) : Str → List Str
  | [] => [[]]
  | c :: rest =>
    if c = sep then [] :: pySplit sep rest
    else
      match pySplit sep rest with
      | [] => [[c]]
      | s :: ss => (c :: s) :: ss

/-- Python `sep.join(parts)`. -/
def pyJoin (sep : Str) : List Str → Str
  | [] => []
  | [p] => p
  | p :: q :: rest => p ++ sep ++ pyJoin sep (q :: rest)

/-- The two fields of Python's `urllib.parse.urlparse` result that the
source reads: `netloc` and `path`. -/
structure UrlParts where
  netloc : Str
  path : Str
deriving DecidableEq

/-- Scan for the first `"://"` and return what follows it (the
scheme-separator step of `urlparse` on scheme-qualified URLs). -/
def afterSchemeSep : Str → Option Str
  | ':' :: '/' :: '/' :: rest => some rest
  | _ :: rest => afterSchemeSep rest
  | [] => none

/-- Split a netloc from what follows: the netloc ends at the first
`/`, `?` or `#`. -/
def splitNetloc : Str → Str × Str
  | [] => ([], [])
  | c :: rest =>
    if c = '/' ∨ c = '?' ∨ c = '#' then ([], c :: rest)
    else ((splitNetloc rest).1.cons c, (splitNetloc rest).2)

/-- The URL path ends at the first `?` (query) or `#` (fragment). -/
def takeQF (s : Str) : Str := s.takeWhile (fun c => decide (c ≠ '?') && decide (c ≠ '#'))

/-- Modelled fragment of Python `urllib.parse.urlparse`, restricted to the
`netloc` and `path` fields that `parse_github_dir_url` reads. -/
def urlparse (url : Str) : UrlParts :=
  match afterSchemeSep url with
  | none => { netloc := [], path := takeQF url }
  | some rest => { netloc := (splitNetloc rest).1, path := takeQF (splitNetloc rest).2 }

/-- Interpretation of the non-empty path segments (source lines 40-53):
at least `[owner, repo]`, branch defaulting to `"main"` and path to `""`,
overridden only when the third segment is literally `tree`. -/
def interpretParts : List Str → Option (Str × Str × Str × Str)
  | owner :: repo :: [] => some (owner, repo, str "main", [])
  | owner :: repo :: t :: more =>
    if t = str "tree" then
      match more with
      | [] => some (owner, repo, str "main", [])
      | branch :: segs => some (owner, repo, branch, pyJoin (str "/") segs)
    else some (owner, repo, str "main", [])
  | _ => none

/-- Body of `parse_github_dir_url` after the `urlparse` call (source
lines 37-53): host check, then segment interpretation. -/
def parse_from_parts (parsed : UrlParts) : Option (Str × Str × Str × Str) :=
  if parsed.netloc ≠ str "github.com" ∧ parsed.netloc ≠ str "www.github.com" then none
  else interpretParts ((pySplit '/' parsed.path).filter (fun p => p ≠ []))

/-- Source `parse_github_dir_url` (lines 27-55): parse a GitHub directory
URL into `(owner, repo, branch, path)`, or `None`. -/
def parse_github_dir_url (url : Str) : Option (Str × Str × Str × Str) :=
  parse_from_parts (urlparse url)

/-- The `try` block of `parse_github_dir_url`, generic over a `urlparse`
that may raise (modelled as `Except`): any raise propagates out of the
block. -/
def parse_github_dir_url_try (up : Str → Except Str UrlParts) (url : Str) :
    Except Str (Option (Str × Str × Str × Str)) :=
  match up url with
  | Except.error e => Except.error e
  | Except.ok parsed => Except.ok (parse_from_parts parsed)

/-- Source `parse_github_dir_url` with its `except Exception: return None`
handler, generic over a possibly-raising `urlparse`. -/
def parse_github_dir_url_guarded (up : Str → Except Str UrlParts) (url : Str) :
    Option (Str × Str × Str × Str) :=
  match parse_github_dir_url_try up url with
  | Except.error _ => none
  | Except.ok v => v

/-- One raw record of the GitHub contents API (spec section 6: every
entry carries at least `type`, `name`, `path`, `size`, `download_url`,
`html_url`, the last two possibly null). -/
structure Entry where
  etype : Str
  name : Str
  path : Str
  size : Nat
  download_url : Option Str
  html_url : Option Str
deriving DecidableEq

/-- A JSON response body of the contents API: a single object (the path
is a file) or an array of objects (the path is a directory). -/
inductive Json where
  | obj (e : Entry)
  | arr (es : List Entry)
deriving DecidableEq

/-- An HTTP response of the contents API. -/
structure Resp where
  status_code : Nat
  json : Json
deriving DecidableEq

/-- Library `requests.Response.raise_for_status` raises exactly for 4xx/5xx. -/
def isErrorStatus (code : Nat) : Bool := decide (400 ≤ code) && decide (code < 600)

/-- The dict-to-list normalization both modes apply to a decoded body
(`if isinstance(data, dict): data = [data]`). -/
def jsonToList (j : Json) : List Entry :=
  match j with
  | Json.obj e => [e]
  | Json.arr es => es

/-- Source `PPT_EXTS` (line 76). -/
def PPT_EXTS : List Str :=
  [str ".ppt", str ".pptx", str ".pptm", str ".pot", str ".potx", str ".pps", str ".ppsx"]

/-- Test `name.lower().endswith(PPT_EXTS)` — a tuple argument to `endswith`
matches if any of its members is a suffix. -/
def hasPptExt (name : Str) : Bool := PPT_EXTS.any (fun ext => pyEndsWith (pyLower name) ext)

/-- The record both modes build from a kept file entry
(source lines 87-93 and 178-184). -/
structure FileRecord where
  name : Str
  path : Str
  size : Nat
  download_url : Option Str
  html_url : Option Str
deriving DecidableEq

/-- The dict `{"name": ..., "path": ..., "size": ..., "download_url": ...,
"html_url": ...}` built from an entry. -/
def toFileRecord (e : Entry) : FileRecord :=
  { name := e.name, path := e.path, size := e.size
  , download_url := e.download_url, html_url := e.html_url }

/-- Source `filter_ppt_files` (lines 79-94): keep file-typed entries whose
lowered name ends with a recognized extension, in order. -/
def filter_ppt_files : List Entry → List FileRecord
  | [] => []
  | it :: rest =>
    if it.etype = str "file" ∧ hasPptExt it.name = true then
      toFileRecord it :: filter_ppt_files rest
    else filter_ppt_files rest

/-- Source `github_api_list_contents` (lines 58-73), with the HTTP
exchange abstracted as `remote : Str → Resp` (owner, repo, branch and
token select the remote; the path selects the response).  Returns the
requested paths alongside the `raise_for_status`-or-normalize outcome. -/
def github_api_list_contents (remote : Str → Resp) (path : Str) :
    List Str × Except Nat (List Entry) :=
  ([path],
   if isErrorStatus (remote path).status_code = true then Except.error (remote path).status_code
   else Except.ok (jsonToList (remote path).json))

/-- Source `list_ppt_in_github` (lines 97-102): one contents request,
then the PPT filter. -/
def list_ppt_in_github (remote : Str → Resp) (path : Str) :
    List Str × Except Nat (List FileRecord) :=
  ((github_api_list_contents remote path).1,
   Except.map filter_ppt_files (github_api_list_contents remote path).2)

/-- Outcome of the recursive walk: a result list, a propagated
`requests.HTTPError` (from `raise_for_status`), or fuel exhaustion of
the embedding (the source's `while` loop has no bound of its own). -/
inductive WalkResult where
  | ok (files : List FileRecord)
  | httpError (code : Nat)
  | outOfFuel
deriving DecidableEq

/-- The `for entry in data:` loop body of `walk_and_collect_ppts`
(source lines 168-184): push unvisited directories (marking them
visited), append matching files, ignore anything else.  The stack top
is the head, so pushing cons-wise matches Python's `append`/`pop()`
end-of-list stack. -/
def processEntries : List Str → List Str → List FileRecord → List Entry →
    List Str × List Str × List FileRecord
  | stack, visited, acc, [] => (stack, visited, acc)
  | stack, visited, acc, e :: rest =>
    if e.etype = str "dir" then
      if e.path ∈ visited then processEntries stack visited acc rest
      else processEntries (e.path :: stack) (e.path :: visited) acc rest
    else if e.etype = str "file" then
      if hasPptExt e.name = true then processEntries stack visited (acc ++ [toFileRecord e]) rest
      else processEntries stack visited acc rest
    else processEntries stack visited acc rest

/-- The `while stack:` loop of `walk_and_collect_ppts` (source lines
156-184): pop a path, request it, skip it on 404, abort on any other
error status, otherwise process its entries.  `reqs` records every
requested path in order; `fuel` bounds the iterations of the embedding. -/
def walkAux (remote : Str → Resp) :
    Nat → List Str → List Str → List Str → List FileRecord → List Str × WalkResult
  | _, [], _, reqs, acc => (reqs, WalkResult.ok acc)
  | 0, _ :: _, _, reqs, _ => (reqs, WalkResult.outOfFuel)
  | Nat.succ fuel, current :: stack, visited, reqs, acc =>
    if (remote current).status_code = 404 then
      walkAux remote fuel stack visited (reqs ++ [current]) acc
    else if isErrorStatus (remote current).status_code = true then
      (reqs ++ [current], WalkResult.httpError (remote current).status_code)
    else
      walkAux remote fuel
        (processEntries stack visited acc (jsonToList (remote current).json)).1
        (processEntries stack visited acc (jsonToList (remote current).json)).2.1
        (reqs ++ [current])
        (processEntries stack visited acc (jsonToList (remote current).json)).2.2

/-- Source `walk_and_collect_ppts` (lines 148-185): the stack starts as
`[path or ""]` (equal to `[path]` for the list-of-characters model),
with empty visited set and result. -/
def walk_and_collect_ppts (remote : Str → Resp) (fuel : Nat) (path : Str) :
    List Str × WalkResult :=
  walkAux remote fuel [path] [] [] []

/-- A plausible URL path segment: non-empty and free of the characters
that would end the segment or the URL path. -/
def urlSeg (s : Str) : Prop := s ≠ [] ∧ ∀ c ∈ s, c ≠ '/' ∧ c ≠ '?' ∧ c ≠ '#'

instance (s : Str) : Decidable (urlSeg s) := by
  unfold urlSeg
  infer_instance

/-- The Boolean test a directory entry must pass to be kept by
`filter_ppt_files`: file-typed with a recognized extension. -/
def isPptFile (e : Entry) : Bool := decide (e.etype = str "file") && hasPptExt e.name

/-- A chain of directory listings: from `p`, each listing exposes
exactly the next directory of `dirs`, and the last listing exposes
exactly the file entry `e`; every response is a 200. -/
def ChainTo (remote : Str → Resp) (e : Entry) : Str → List Str → Prop
  | p, [] => (remote p).status_code = 200 ∧ jsonToList (remote p).json = [e]
  | p, d :: rest => (remote p).status_code = 200 ∧
      (∃ ed : Entry, ed.etype = str "dir" ∧ ed.path = d ∧ jsonToList (remote p).json = [ed]) ∧
      ChainTo remote e d rest

/-- A remote that answers 404 everywhere. -/
def notFoundRemote : Str → Resp := fun _ => ⟨404, Json.arr []⟩

/-- A matching file entry used by concrete instances. -/
def talkEntry : Entry := ⟨str "file", str "talk.ppt", str "a/b/talk.ppt", 7, none, none⟩

/-- A directory entry with a given path, used by concrete instances. -/
def dirEntry (p : Str) : Entry := ⟨str "dir", str "sub", p, 0, none, none⟩

/-- A two-level chain remote: `"" → a → a/b → talk.ppt`. -/
def chainRemote : Str → Resp := fun p =>
  if p = str "" then ⟨200, Json.arr [dirEntry (str "a")]⟩
  else if p = str "a" then ⟨200, Json.arr [dirEntry (str "a/b")]⟩
  else if p = str "a/b" then ⟨200, Json.arr [talkEntry]⟩
  else ⟨404, Json.arr []⟩

/-- A file entry living in directory `d` of `dupRemote`. -/
def dEntry : Entry := ⟨str "file", str "t.ppt", str "d/t.ppt", 1, none, none⟩

/-- A remote in which directory `d` is listed as a child of the two
different parents `a` and `b`. -/
def dupRemote : Str → Resp := fun p =>
  if p = str "" then ⟨200, Json.arr [dirEntry (str "a"), dirEntry (str "b")]⟩
  else if p = str "a" then ⟨200, Json.arr [dirEntry (str "d")]⟩
  else if p = str "b" then ⟨200, Json.arr [dirEntry (str "d")]⟩
  else if p = str "d" then ⟨200, Json.arr [dEntry]⟩
  else ⟨404, Json.arr []⟩

/-- A remote whose single listing is one matching file object, plus
one whose listing mixes a directory with matching and non-matching
files. -/
def singleObjRemote : Str → Resp := fun _ => ⟨200, Json.obj talkEntry⟩

/-- A directory listing mixing a subdirectory, two matching files and
two rejected names, in a fixed order. -/
def mixedRemote : Str → Resp := fun _ =>
  ⟨200, Json.arr
    [ ⟨str "file", str "intro.pptx", str "intro.pptx", 1024, none, none⟩
    , dirEntry (str "more")
    , ⟨str "file", str "notes.txt", str "notes.txt", 3, none, none⟩
    , ⟨str "file", str "DECK.PPSX", str "DECK.PPSX", 2048, none, none⟩
    , ⟨str "file", str "deck.pptxx", str "deck.pptxx", 5, none, none⟩ ]⟩

lemma pySplit_of_not_mem (sep : Char) (l : Str) (h : sep ∉ l) : pySplit sep l = [l] := by
  induction l with
  | nil => rfl
  | cons c rest ih =>
    have hc : c ≠ sep := by rintro rfl; exact h (List.mem_cons_self _ _)
    have hr : sep ∉ rest := fun hm => h (List.mem_cons_of_mem _ hm)
    simp [pySplit, hc, ih hr]

lemma pySplit_append (sep : Char) (l1 l2 : Str) (h : sep ∉ l1) :
    pySplit sep (l1 ++ sep :: l2) = l1 :: pySplit sep l2 := by
  induction l1 with
  | nil => simp [pySplit]
  | cons c rest ih =>
    have hc : c ≠ sep := by rintro rfl; exact h (List.mem_cons_self _ _)
    have hr : sep ∉ rest := fun hm => h (List.mem_cons_of_mem _ hm)
    simp [pySplit, hc, ih hr]

lemma pySplit_pyJoin (sep : Char) (L : List Str) (hne : L ≠ [])
    (h : ∀ p ∈ L, sep ∉ p) : pySplit sep (pyJoin [sep] L) = L := by
  induction L with
  | nil => cases hne rfl
  | cons p rest ih =>
    cases rest with
    | nil => simpa [pyJoin] using pySplit_of_not_mem sep p (h p (by simp))
    | cons q rest2 =>
      have hj : pyJoin [sep] (p :: q :: rest2) = p ++ sep :: pyJoin [sep] (q :: rest2) := by
        simp [pyJoin]
      rw [hj, pySplit_append sep p _ (h p (by simp))]
      rw [ih (by simp) (fun x hx => h x (List.mem_cons_of_mem _ hx))]

lemma pyJoin_mem {c : Char} (sep : Str) (L : List Str) (h : c ∈ pyJoin sep L) :
    c ∈ sep ∨ ∃ p ∈ L, c ∈ p := by
  induction L with
  | nil => simp [pyJoin] at h
  | cons p rest ih =>
    cases rest with
    | nil => exact Or.inr ⟨p, by simp, by simpa [pyJoin] using h⟩
    | cons q rest2 =>
      have hj : pyJoin sep (p :: q :: rest2) = p ++ sep ++ pyJoin sep (q :: rest2) := by
        simp [pyJoin]
      rw [hj] at h
      rcases List.mem_append.mp h with h' | h'
      · rcases List.mem_append.mp h' with h'' | h''
        · exact Or.inr ⟨p, by simp, h''⟩
        · exact Or.inl h''
      · rcases ih h' with h'' | ⟨p', hp', hc'⟩
        · exact Or.inl h''
        · exact Or.inr ⟨p', List.mem_cons_of_mem _ hp', hc'⟩

lemma afterSchemeSep_https (t : Str) : afterSchemeSep (str "https://" ++ t) = some t := rfl

lemma splitNetloc_append (host t : Str)
    (hh : ∀ c ∈ host, ¬(c = '/' ∨ c = '?' ∨ c = '#')) :
    splitNetloc (host ++ '/' :: t) = (host, '/' :: t) := by
  induction host with
  | nil => simp [splitNetloc]
  | cons c rest ih =>
    have hc := hh c (by simp)
    have hr : ∀ c' ∈ rest, ¬(c' = '/' ∨ c' = '?' ∨ c' = '#') :=
      fun c' h' => hh c' (List.mem_cons_of_mem _ h')
    simp [splitNetloc, hc, ih hr]

lemma takeQF_eq_self (l : Str) (h : ∀ c ∈ l, c ≠ '?' ∧ c ≠ '#') : takeQF l = l := by
  induction l with
  | nil => rfl
  | cons c rest ih =>
    have hc := h c (by simp)
    have hr : takeQF rest = rest := ih (fun c' h' => h c' (List.mem_cons_of_mem _ h'))
    simp only [takeQF, List.takeWhile] at hr ⊢
    simp [hc.1, hc.2, hr]
    exact fun x hx => h x (List.mem_cons_of_mem _ hx)

lemma urlparse_https (host rest : Str)
    (hhost : ∀ c ∈ host, ¬(c = '/' ∨ c = '?' ∨ c = '#'))
    (hrest : ∀ c ∈ rest, c ≠ '?' ∧ c ≠ '#') :
    urlparse (str "https://" ++ host ++ '/' :: rest) = ⟨host, '/' :: rest⟩ := by
  have h1 : str "https://" ++ host ++ '/' :: rest = str "https://" ++ (host ++ '/' :: rest) := by
    simp [List.append_assoc]
  have h2 : urlparse (str "https://" ++ host ++ '/' :: rest) =
      { netloc := (splitNetloc (host ++ '/' :: rest)).1
      , path := takeQF (splitNetloc (host ++ '/' :: rest)).2 } := by
    rw [urlparse, h1, afterSchemeSep_https]
  rw [h2, splitNetloc_append host rest hhost]
  have : takeQF ('/' :: rest) = '/' :: rest :=
    takeQF_eq_self _ (by
      intro c hc
      rcases List.mem_cons.mp hc with rfl | hc'
      · exact ⟨by decide, by decide⟩
      · exact hrest c hc')
  simp [this]

/-- C3: for every URL of the form
`https://github.com/{owner}/{repo}/tree/{branch}/{path...}` with
non-empty owner, repo and branch segments, `parse_github_dir_url`
returns exactly that owner, repo and branch, and the remaining segments
rejoined with `/` as the path, all unchanged. -/
theorem parse_github_dir_url_roundtrip (owner repo branch : Str) (segs : List Str)
    (howner : urlSeg owner) (hrepo : urlSeg repo) (hbranch : urlSeg branch)
    (hsegs : ∀ s ∈ segs, urlSeg s) :
    parse_github_dir_url
      (str "https://github.com/" ++ pyJoin (str "/") ([owner, repo, str "tree", branch] ++ segs)) =
      some (owner, repo, branch, pyJoin (str "/") segs) := by
  set L : List Str := [owner, repo, str "tree", branch] ++ segs with hL
  set J : Str := pyJoin (str "/") L with hJ
  have hmemL : ∀ p ∈ L, p ≠ [] ∧ ∀ c ∈ p, c ≠ '/' ∧ c ≠ '?' ∧ c ≠ '#' := by
    intro p hp
    rw [hL] at hp
    simp only [List.cons_append, List.nil_append, List.mem_cons] at hp
    rcases hp with rfl | rfl | rfl | rfl | hp
    · exact howner
    · exact hrepo
    · exact ⟨by decide, by decide⟩
    · exact hbranch
    · exact hsegs p hp
  have hurl : str "https://github.com/" ++ J = str "https://" ++ str "github.com" ++ '/' :: J := by
    have h0 : str "https://github.com/" = str "https://" ++ str "github.com" ++ ['/'] := by decide
    rw [h0]
    simp [List.append_assoc]
  have hJsafe : ∀ c ∈ J, c ≠ '?' ∧ c ≠ '#' := by
    intro c hc
    rcases pyJoin_mem (str "/") L hc with hsep | ⟨p, hp, hcp⟩
    · have hcs : c = '/' := by simpa [str] using hsep
      subst hcs
      exact ⟨by decide, by decide⟩
    · exact ⟨((hmemL p hp).2 c hcp).2.1, ((hmemL p hp).2 c hcp).2.2⟩
  have hup : urlparse (str "https://github.com/" ++ J) = ⟨str "github.com", '/' :: J⟩ := by
    rw [hurl]
    exact urlparse_https (str "github.com") J (by decide) hJsafe
  have hsplitJ : pySplit '/' J = L := by
    have hs : str "/" = ['/'] := rfl
    rw [hJ, hs]
    exact pySplit_pyJoin '/' L (by rw [hL]; simp)
      (fun p hp hc => ((hmemL p hp).2 '/' hc).1 rfl)
  have hsplit : pySplit '/' ('/' :: J) = [] :: L := by
    simp [pySplit, hsplitJ]
  have hfilter : (([] : Str) :: L).filter (fun p => p ≠ []) = L := by
    simp only [List.filter_cons]
    norm_num
    exact fun p hp => (hmemL p hp).1
  simp only [parse_github_dir_url]
  rw [hup]
  simp only [parse_from_parts]
  rw [if_neg (by simp)]
  rw [hsplit, hfilter, hL]
  simp only [List.cons_append, List.nil_append]
  simp [interpretParts]

/-- C3 witness: a concrete URL with branch `dev` and two path segments. -/
theorem parse_github_dir_url_roundtrip_witness :
    parse_github_dir_url (str "https://github.com/" ++ pyJoin (str "/")
      ([str "octo", str "demo", str "tree", str "dev"] ++ [str "a", str "b"])) =
      some (str "octo", str "demo", str "dev", pyJoin (str "/") [str "a", str "b"]) :=
  parse_github_dir_url_roundtrip (str "octo") (str "demo") (str "dev") [str "a", str "b"]
    (by decide) (by decide) (by decide) (by decide)

/-- C4: for every input URL whose host is neither `github.com` nor
`www.github.com`, or whose path has fewer than two non-empty segments,
the parser returns `none` — no partial result. -/
theorem parse_github_dir_url_invalid (url : Str)
    (h : ((urlparse url).netloc ≠ str "github.com" ∧ (urlparse url).netloc ≠ str "www.github.com") ∨
      ((pySplit '/' (urlparse url).path).filter (fun p => p ≠ [])).length < 2) :
    parse_github_dir_url url = none := by
  simp only [parse_github_dir_url, parse_from_parts]
  by_cases hb : (urlparse url).netloc ≠ str "github.com" ∧ (urlparse url).netloc ≠ str "www.github.com"
  · rw [if_pos hb]
  · rw [if_neg hb]
    rcases h with h | h
    · exact absurd h hb
    · cases hp : (pySplit '/' (urlparse url).path).filter (fun p => p ≠ []) with
      | nil => rfl
      | cons a tail =>
        cases tail with
        | nil => rfl
        | cons b t =>
          rw [hp] at h
          simp at h
          omega

/-- C4 witness: a non-github host is rejected. -/
theorem parse_github_dir_url_invalid_witness :
    parse_github_dir_url (str "https://gitlab.com/owner/repo") = none :=
  parse_github_dir_url_invalid _ (Or.inl (by decide))

/-- C8: for every URL with valid host and at least owner and repo
segments but whose third segment (if any) is not literally `tree`, the
parser returns branch `main` and the empty path. -/
theorem parse_github_dir_url_default_branch (url : Str) (owner repo : Str) (rest : List Str)
    (hhost : (urlparse url).netloc = str "github.com" ∨ (urlparse url).netloc = str "www.github.com")
    (hparts : (pySplit '/' (urlparse url).path).filter (fun p => p ≠ []) = owner :: repo :: rest)
    (htree : rest.head? ≠ some (str "tree")) :
    parse_github_dir_url url = some (owner, repo, str "main", []) := by
  simp only [parse_github_dir_url, parse_from_parts]
  rw [if_neg (by rcases hhost with h | h <;> simp [h]), hparts]
  cases rest with
  | nil => rfl
  | cons t more =>
    have ht : t ≠ str "tree" := by simpa using htree
    simp [interpretParts, ht]

/-- C8 witness: `https://github.com/owner/repo` yields branch `main`
and the empty path. -/
theorem parse_github_dir_url_default_branch_witness :
    parse_github_dir_url (str "https://github.com/owner/repo") =
      some (str "owner", str "repo", str "main", []) :=
  parse_github_dir_url_default_branch _ (str "owner") (str "repo") []
    (Or.inl (by decide)) (by decide) (by decide)

/-- C10: for every input and every (possibly raising) `urlparse`, an
error inside the `try` block is caught and reported as `none`, never
propagated; with the non-raising `urlparse` the guarded parser is the
parser itself, so it terminates with an `Option` value on every input. -/
theorem parse_github_dir_url_guard (up : Str → Except Str UrlParts) (url : Str) :
    ((∃ e, parse_github_dir_url_try up url = Except.error e) →
      parse_github_dir_url_guarded up url = none) ∧
    parse_github_dir_url_guarded (fun u => Except.ok (urlparse u)) url =
      parse_github_dir_url url := by
  constructor
  · rintro ⟨e, he⟩
    simp [parse_github_dir_url_guarded, he]
  · rfl

/-- C10 witness: a raising `urlparse` is caught and reported as `none`. -/
theorem parse_github_dir_url_guard_witness :
    parse_github_dir_url_guarded (fun _ => Except.error (str "boom")) (str "x") = none :=
  (parse_github_dir_url_guard (fun _ => Except.error (str "boom")) (str "x")).1 ⟨str "boom", rfl⟩

lemma hasPptExt_iff (name : Str) :
    hasPptExt name = true ↔ ∃ ext ∈ PPT_EXTS, ext <:+ pyLower name := by
  simp [hasPptExt, List.any_eq_true, pyEndsWith, List.isSuffixOf_iff_suffix]

lemma toFileRecord_inj {a e : Entry} (h1 : a.etype = str "file") (h2 : e.etype = str "file")
    (h3 : toFileRecord a = toFileRecord e) : a = e := by
  cases a
  cases e
  simp only [toFileRecord, FileRecord.mk.injEq] at h3
  simp only [Entry.mk.injEq]
  simp only at h1 h2
  exact ⟨h1.trans h2.symm, h3.1, h3.2.1, h3.2.2.1, h3.2.2.2.1, h3.2.2.2.2⟩

lemma filter_ppt_files_eq (items : List Entry) :
    filter_ppt_files items = (items.filter isPptFile).map toFileRecord := by
  induction items with
  | nil => rfl
  | cons it rest ih =>
    simp only [filter_ppt_files, List.filter_cons, isPptFile]
    by_cases h1 : it.etype = str "file"
    · by_cases h2 : hasPptExt it.name = true
      · simp [h1, h2, ih]
      · simp [h1, h2, ih]
    · simp [h1, ih]

lemma filter_ppt_files_mem (items : List Entry) (r : FileRecord)
    (h : r ∈ filter_ppt_files items) :
    ∃ e ∈ items, e.etype = str "file" ∧ hasPptExt e.name = true ∧ r = toFileRecord e := by
  induction items with
  | nil => simp [filter_ppt_files] at h
  | cons it rest ih =>
    simp only [filter_ppt_files] at h
    split_ifs at h with h1
    · rcases List.mem_cons.mp h with rfl | h'
      · exact ⟨it, by simp, h1.1, h1.2, rfl⟩
      · obtain ⟨e, he, h2, h3, h4⟩ := ih h'
        exact ⟨e, List.mem_cons_of_mem _ he, h2, h3, h4⟩
    · obtain ⟨e, he, h2, h3, h4⟩ := ih h
      exact ⟨e, List.mem_cons_of_mem _ he, h2, h3, h4⟩

lemma list_ppt_ok (remote : Str → Resp) (path : Str) (files : List FileRecord)
    (h : (list_ppt_in_github remote path).2 = Except.ok files) :
    files = filter_ppt_files (jsonToList (remote path).json) ∧
      isErrorStatus (remote path).status_code = false := by
  simp only [list_ppt_in_github, github_api_list_contents] at h
  split_ifs at h with he
  · simp [Except.map] at h
  · simp only [Except.map, Except.ok.injEq] at h
    exact ⟨h.symm, by simpa using he⟩

lemma processEntries_acc_mem (entries : List Entry) :
    ∀ (stack visited : List Str) (acc : List FileRecord) (r : FileRecord),
      r ∈ (processEntries stack visited acc entries).2.2 →
      r ∈ acc ∨ ∃ e ∈ entries, e.etype = str "file" ∧ hasPptExt e.name = true ∧
        r = toFileRecord e := by
  induction entries with
  | nil => intro stack visited acc r h; exact Or.inl h
  | cons e rest ih =>
    intro stack visited acc r h
    simp only [processEntries] at h
    split_ifs at h with h1 h2 h3 h4
    · rcases ih _ _ _ _ h with h' | ⟨e', he', k1, k2, k3⟩
      · exact Or.inl h'
      · exact Or.inr ⟨e', List.mem_cons_of_mem _ he', k1, k2, k3⟩
    · rcases ih _ _ _ _ h with h' | ⟨e', he', k1, k2, k3⟩
      · exact Or.inl h'
      · exact Or.inr ⟨e', List.mem_cons_of_mem _ he', k1, k2, k3⟩
    · rcases ih _ _ _ _ h with h' | ⟨e', he', k1, k2, k3⟩
      · rcases List.mem_append.mp h' with h'' | h''
        · exact Or.inl h''
        · exact Or.inr ⟨e, List.mem_cons_self _ _, h3, h4, by simpa using h''⟩
      · exact Or.inr ⟨e', List.mem_cons_of_mem _ he', k1, k2, k3⟩
    · rcases ih _ _ _ _ h with h' | ⟨e', he', k1, k2, k3⟩
      · exact Or.inl h'
      · exact Or.inr ⟨e', List.mem_cons_of_mem _ he', k1, k2, k3⟩
    · rcases ih _ _ _ _ h with h' | ⟨e', he', k1, k2, k3⟩
      · exact Or.inl h'
      · exact Or.inr ⟨e', List.mem_cons_of_mem _ he', k1, k2, k3⟩

lemma walkAux_mem (remote : Str → Resp) :
    ∀ (fuel : Nat) (stack visited reqs : List Str) (acc : List FileRecord)
      (files : List FileRecord),
      (walkAux remote fuel stack visited reqs acc).2 = WalkResult.ok files →
      ∀ r ∈ files,
        r ∈ acc ∨ ∃ p e, e ∈ jsonToList (remote p).json ∧ e.etype = str "file" ∧
          hasPptExt e.name = true ∧ r = toFileRecord e := by
  intro fuel
  induction fuel with
  | zero =>
    intro stack visited reqs acc files h r hr
    cases stack with
    | nil =>
      simp only [walkAux, WalkResult.ok.injEq] at h
      subst h
      exact Or.inl hr
    | cons current s => simp [walkAux] at h
  | succ n ih =>
    intro stack visited reqs acc files h r hr
    cases stack with
    | nil =>
      simp only [walkAux, WalkResult.ok.injEq] at h
      subst h
      exact Or.inl hr
    | cons current s =>
      simp only [walkAux] at h
      split_ifs at h with h404 herr
      · exact ih _ _ _ _ _ h r hr
      · rcases ih _ _ _ _ _ h r hr with h' | h'
        · rcases processEntries_acc_mem _ _ _ _ _ h' with h'' | ⟨e, he, k1, k2, k3⟩
          · exact Or.inl h''
          · exact Or.inr ⟨current, e, he, k1, k2, k3⟩
        · exact Or.inr h'

/-- C5: in both listing modes, every record of the output comes from an
entry of type `file` whose name, lowercased, carries one of the seven
recognized extensions as a true suffix; entries of any other type, and
names where no extension is a true suffix, are never included. -/
theorem ppt_records_sound :
    (∀ (remote : Str → Resp) (path : Str) (files : List FileRecord),
      (list_ppt_in_github remote path).2 = Except.ok files →
      ∀ r ∈ files, ∃ e ∈ jsonToList (remote path).json,
        e.etype = str "file" ∧ (∃ ext ∈ PPT_EXTS, ext <:+ pyLower r.name) ∧
        r = toFileRecord e) ∧
    (∀ (remote : Str → Resp) (fuel : Nat) (path : Str) (files : List FileRecord),
      (walk_and_collect_ppts remote fuel path).2 = WalkResult.ok files →
      ∀ r ∈ files, ∃ p e, e ∈ jsonToList (remote p).json ∧
        e.etype = str "file" ∧ (∃ ext ∈ PPT_EXTS, ext <:+ pyLower r.name) ∧
        r = toFileRecord e) := by
  constructor
  · intro remote path files h r hr
    obtain ⟨hfiles, -⟩ := list_ppt_ok remote path files h
    subst hfiles
    obtain ⟨e, he, h1, h2, h3⟩ := filter_ppt_files_mem _ r hr
    refine ⟨e, he, h1, ?_, h3⟩
    have : r.name = e.name := by rw [h3]; rfl
    rw [this]
    exact (hasPptExt_iff e.name).mp h2
  · intro remote fuel path files h r hr
    rcases walkAux_mem remote fuel [path] [] [] [] files h r hr with h' | ⟨p, e, he, h1, h2, h3⟩
    · simp at h'
    · refine ⟨p, e, he, h1, ?_, h3⟩
      have : r.name = e.name := by rw [h3]; rfl
      rw [this]
      exact (hasPptExt_iff e.name).mp h2

/-- C5 witness: the mixed listing keeps only its two matching file
entries, and each comes from a file-typed entry with a true extension
suffix. -/
theorem ppt_records_sound_witness :
    ∃ e ∈ jsonToList (mixedRemote (str "")).json,
      e.etype = str "file" ∧
      (∃ ext ∈ PPT_EXTS, ext <:+ pyLower (toFileRecord
        (⟨str "file", str "DECK.PPSX", str "DECK.PPSX", 2048, none, none⟩ : Entry)).name) ∧
      toFileRecord (⟨str "file", str "DECK.PPSX", str "DECK.PPSX", 2048, none, none⟩ : Entry) =
        toFileRecord e :=
  ppt_records_sound.1 mixedRemote (str "")
    (filter_ppt_files (jsonToList (mixedRemote (str "")).json)) rfl
    (toFileRecord (⟨str "file", str "DECK.PPSX", str "DECK.PPSX", 2048, none, none⟩ : Entry))
    (by decide)

/-- C7: the single-level listing issues exactly one contents request
(for the requested path only), returns the matching files in the order
of the response, and everything it returns comes from a file-typed
entry — a `dir`-typed entry is neither expanded nor reflected in the
output. -/
theorem single_level_no_descend (remote : Str → Resp) (path : Str) :
    (list_ppt_in_github remote path).1 = [path] ∧
    (isErrorStatus (remote path).status_code = false →
      (list_ppt_in_github remote path).2 =
        Except.ok (((jsonToList (remote path).json).filter isPptFile).map toFileRecord)) ∧
    (∀ files, (list_ppt_in_github remote path).2 = Except.ok files →
      ∀ r ∈ files, ∃ e ∈ jsonToList (remote path).json,
        e.etype = str "file" ∧ r = toFileRecord e) := by
  refine ⟨rfl, ?_, ?_⟩
  · intro herr
    simp only [list_ppt_in_github, github_api_list_contents]
    rw [if_neg (by simp [herr])]
    rw [Except.map, filter_ppt_files_eq]
  · intro files h r hr
    obtain ⟨hfiles, -⟩ := list_ppt_ok remote path files h
    subst hfiles
    obtain ⟨e, he, h1, h2, h3⟩ := filter_ppt_files_mem _ r hr
    exact ⟨e, he, h1, h3⟩

/-- C7 witness: on the mixed listing the single-level mode requests
only the root and returns exactly the two matching files, in response
order, skipping the `dir` entry. -/
theorem single_level_no_descend_witness :
    (list_ppt_in_github mixedRemote (str "")).1 = [str ""] ∧
    (list_ppt_in_github mixedRemote (str "")).2 =
      Except.ok (((jsonToList (mixedRemote (str "")).json).filter isPptFile).map toFileRecord) := by
  refine ⟨(single_level_no_descend mixedRemote (str "")).1, ?_⟩
  exact (single_level_no_descend mixedRemote (str "")).2.1 (by decide)

/-- C9: in both listing modes, a single-object 200 response whose
object is a matching file yields exactly one FileRecord. -/
theorem single_object_one_record (remote : Str → Resp) (path : Str) (e : Entry) (fuel : Nat)
    (hjson : (remote path).json = Json.obj e)
    (hstatus : (remote path).status_code = 200)
    (he : e.etype = str "file") (hm : hasPptExt e.name = true) (hfuel : 1 ≤ fuel) :
    (list_ppt_in_github remote path).2 = Except.ok [toFileRecord e] ∧
    walk_and_collect_ppts remote fuel path = ([path], WalkResult.ok [toFileRecord e]) := by
  have hne : e.etype ≠ str "dir" := by rw [he]; decide
  constructor
  · simp only [list_ppt_in_github, github_api_list_contents, hstatus, hjson]
    rw [if_neg (by decide)]
    simp [Except.map, jsonToList, filter_ppt_files, he, hm]
  · obtain ⟨n, rfl⟩ : ∃ n, fuel = n + 1 := ⟨fuel - 1, by omega⟩
    simp only [walk_and_collect_ppts, walkAux, hstatus, hjson]
    rw [if_neg (by decide), if_neg (by decide)]
    simp [jsonToList, processEntries, hne, he, hm, walkAux,
      (by decide : ¬(str "file" = str "dir"))]

/-- C9 witness: a remote answering with the single object `talk.ppt`
yields exactly one record in both modes. -/
theorem single_object_one_record_witness :
    (list_ppt_in_github singleObjRemote (str "a/b")).2 = Except.ok [toFileRecord talkEntry] ∧
    walk_and_collect_ppts singleObjRemote 2 (str "a/b") =
      ([str "a/b"], WalkResult.ok [toFileRecord talkEntry]) :=
  single_object_one_record singleObjRemote (str "a/b") talkEntry 2 rfl rfl (by decide)
    (by decide) (by omega)

/-- C1 counterexample: a 404 on the very first requested path (the
start path) is NOT surfaced as a fatal error — the walk completes
successfully with an empty result, contradicting the claim that it is
fatal. -/
theorem walk_404_start_not_fatal :
    walk_and_collect_ppts notFoundRemote 1 (str "start") = ([str "start"], WalkResult.ok []) ∧
    (walk_and_collect_ppts notFoundRemote 1 (str "start")).2 ≠ WalkResult.httpError 404 := by
  decide

/-- C1 (amended): a 404 for any requested path — including the very
first (start) path — is silently skipped and the walk continues with
the rest of the stack; a 404 on the start path therefore yields a
successful empty result rather than an error. -/
theorem walk_404_skipped (remote : Str → Resp) :
    (∀ (path : Str) (fuel : Nat), (remote path).status_code = 404 → 1 ≤ fuel →
      walk_and_collect_ppts remote fuel path = ([path], WalkResult.ok [])) ∧
    (∀ (current : Str) (stack visited reqs : List Str) (acc : List FileRecord) (fuel : Nat),
      (remote current).status_code = 404 →
      walkAux remote (fuel + 1) (current :: stack) visited reqs acc =
        walkAux remote fuel stack visited (reqs ++ [current]) acc) := by
  constructor
  · intro path fuel h hf
    obtain ⟨n, rfl⟩ : ∃ n, fuel = n + 1 := ⟨fuel - 1, by omega⟩
    simp [walk_and_collect_ppts, walkAux, h]
  · intro current stack visited reqs acc fuel h
    simp [walkAux, h]

/-- C1 witness: the skip behaviour at a concrete 404 remote. -/
theorem walk_404_skipped_witness :
    walk_and_collect_ppts notFoundRemote 3 (str "p") = ([str "p"], WalkResult.ok []) :=
  (walk_404_skipped notFoundRemote).1 (str "p") 3 rfl (by omega)

lemma walkAux_chain (remote : Str → Resp) (e : Entry)
    (he : e.etype = str "file") (hm : hasPptExt e.name = true) :
    ∀ (dirs : List Str) (start : Str) (visited reqs : List Str) (acc : List FileRecord)
      (fuel : Nat),
      dirs.length + 1 ≤ fuel →
      (∀ d ∈ dirs, d ∉ visited) →
      dirs.Nodup →
      ChainTo remote e start dirs →
      walkAux remote fuel [start] visited reqs acc =
        (reqs ++ start :: dirs, WalkResult.ok (acc ++ [toFileRecord e])) := by
  have hne : e.etype ≠ str "dir" := by rw [he]; decide
  intro dirs
  induction dirs with
  | nil =>
    intro start visited reqs acc fuel hfuel _ _ hchain
    simp only [ChainTo] at hchain
    obtain ⟨h200, hlist⟩ := hchain
    obtain ⟨n, rfl⟩ : ∃ n, fuel = n + 1 := ⟨fuel - 1, by omega⟩
    have hpe : processEntries [] visited acc [e] = ([], visited, acc ++ [toFileRecord e]) := by
      simp only [processEntries]
      rw [if_neg hne, if_pos he, if_pos hm]
    simp only [walkAux, h200]
    rw [if_neg (by decide), if_neg (by decide)]
    rw [hlist, hpe]
    simp [walkAux]
  | cons d rest ih =>
    intro start visited reqs acc fuel hfuel hfresh hnodup hchain
    simp only [ChainTo] at hchain
    obtain ⟨h200, ⟨ed, hed1, hed2, hlist⟩, hchain'⟩ := hchain
    obtain ⟨n, rfl⟩ : ∃ n, fuel = n + 1 := ⟨fuel - 1, by omega⟩
    have hd : d ∉ visited := hfresh d (List.mem_cons_self _ _)
    have hpe : processEntries [] visited acc [ed] = ([d], d :: visited, acc) := by
      simp only [processEntries]
      rw [if_pos hed1, hed2, if_neg hd]
    simp only [walkAux, h200]
    rw [if_neg (by decide), if_neg (by decide)]
    rw [hlist, hpe]
    rw [ih d (d :: visited) (reqs ++ [start]) acc n
      (by simpa using hfuel)
      (by
        intro x hx
        simp only [List.mem_cons]
        rintro (rfl | hx')
        · exact (List.nodup_cons.mp hnodup).1 hx
        · exact hfresh x (List.mem_cons_of_mem _ hx) hx')
      (List.nodup_cons.mp hnodup).2
      hchain']
    simp

/-- C6: for a chain of directories of arbitrary depth below the start
path ending in a matching file, the recursive walk requests exactly
the chain and returns exactly that file, while the single-level
listing on the start path returns no file at all. -/
theorem walk_finds_nested_file (remote : Str → Resp) (start : Str) (dirs : List Str)
    (e : Entry) (fuel : Nat)
    (hnodup : (start :: dirs).Nodup)
    (hchain : ChainTo remote e start dirs)
    (he : e.etype = str "file") (hm : hasPptExt e.name = true)
    (hfuel : dirs.length + 1 ≤ fuel) :
    walk_and_collect_ppts remote fuel start = (start :: dirs, WalkResult.ok [toFileRecord e]) ∧
    (dirs ≠ [] → (list_ppt_in_github remote start).2 = Except.ok []) := by
  constructor
  · have h := walkAux_chain remote e he hm dirs start [] [] [] fuel hfuel
      (by simp) (List.Nodup.of_cons hnodup) hchain
    simpa [walk_and_collect_ppts] using h
  · intro hne
    cases dirs with
    | nil => cases hne rfl
    | cons d rest =>
      simp only [ChainTo] at hchain
      obtain ⟨h200, ⟨ed, hed1, hed2, hlist⟩, -⟩ := hchain
      have hedf : ed.etype ≠ str "file" := by rw [hed1]; decide
      simp only [list_ppt_in_github, github_api_list_contents, h200]
      rw [if_neg (by decide)]
      rw [hlist]
      simp [Except.map, filter_ppt_files, hedf]

/-- C6 witness: the concrete chain `"" → a → a/b → talk.ppt`. -/
theorem walk_finds_nested_file_witness :
    walk_and_collect_ppts chainRemote 3 (str "") =
      ([str "", str "a", str "a/b"], WalkResult.ok [toFileRecord talkEntry]) ∧
    (list_ppt_in_github chainRemote (str "")).2 = Except.ok [] := by
  have h := walk_finds_nested_file chainRemote (str "") [str "a", str "a/b"] talkEntry 3
    (by decide)
    (by
      refine ⟨rfl, ⟨dirEntry (str "a"), rfl, rfl, rfl⟩, ?_⟩
      refine ⟨rfl, ⟨dirEntry (str "a/b"), rfl, rfl, rfl⟩, ?_⟩
      exact ⟨rfl, rfl⟩)
    (by decide) (by decide) (by decide)
  exact ⟨h.1, h.2 (by decide)⟩

lemma processEntries_stack_count (d : Str) (entries : List Entry) :
    ∀ (stack visited : List Str) (acc : List FileRecord),
      (d ∈ visited →
        ((processEntries stack visited acc entries).1.count d = stack.count d ∧
          d ∈ (processEntries stack visited acc entries).2.1)) ∧
      (d ∉ visited →
        ((processEntries stack visited acc entries).1.count d = stack.count d ∧
            d ∉ (processEntries stack visited acc entries).2.1) ∨
          ((processEntries stack visited acc entries).1.count d = stack.count d + 1 ∧
            d ∈ (processEntries stack visited acc entries).2.1)) := by
  induction entries with
  | nil =>
    intro stack visited acc
    exact ⟨fun h => ⟨rfl, h⟩, fun h => Or.inl ⟨rfl, h⟩⟩
  | cons e rest ih =>
    intro stack visited acc
    simp only [processEntries]
    split_ifs with h1 h2 h3 h4
    · exact ih stack visited acc
    · constructor
      · intro hd
        have hne : e.path ≠ d := fun h => h2 (h ▸ hd)
        have hrec := (ih (e.path :: stack) (e.path :: visited) acc).1 (List.mem_cons_of_mem _ hd)
        refine ⟨?_, hrec.2⟩
        rw [hrec.1]
        simp [List.count_cons, hne]
      · intro hd
        by_cases hed : e.path = d
        · subst hed
          have hrec := (ih (e.path :: stack) (e.path :: visited) acc).1 (List.mem_cons_self _ _)
          right
          refine ⟨?_, hrec.2⟩
          rw [hrec.1]
          simp [List.count_cons]
        · have hrec := (ih (e.path :: stack) (e.path :: visited) acc).2 (by
            simp only [List.mem_cons]
            rintro (rfl | h)
            · exact hed rfl
            · exact hd h)
          rcases hrec with ⟨hc, hmem⟩ | ⟨hc, hmem⟩
          · left
            exact ⟨by rw [hc]; simp [List.count_cons, hed], hmem⟩
          · right
            exact ⟨by rw [hc]; simp [List.count_cons, hed], hmem⟩
    · exact ih stack visited (acc ++ [toFileRecord e])
    · exact ih stack visited acc
    · exact ih stack visited acc

lemma processEntries_acc_count (r : FileRecord) (entries : List Entry) :
    ∀ (stack visited : List Str) (acc : List FileRecord),
      (processEntries stack visited acc entries).2.2.count r =
        acc.count r + entries.countP
          (fun e' => decide (e'.etype = str "file") && hasPptExt e'.name &&
            decide (toFileRecord e' = r)) := by
  induction entries with
  | nil => intro stack visited acc; simp [processEntries]
  | cons e rest ih =>
    intro stack visited acc
    simp only [processEntries]
    split_ifs with h1 h2 h3 h4
    · have hp : (decide (e.etype = str "file") && hasPptExt e.name &&
          decide (toFileRecord e = r)) = false := by
        have hd : decide (str "dir" = str "file") = false := by decide
        rw [h1, hd]
        simp
      rw [ih, List.countP_cons, hp]
      simp
    · have hp : (decide (e.etype = str "file") && hasPptExt e.name &&
          decide (toFileRecord e = r)) = false := by
        have hd : decide (str "dir" = str "file") = false := by decide
        rw [h1, hd]
        simp
      rw [ih, List.countP_cons, hp]
      simp
    · rw [ih, List.countP_cons, List.count_append]
      have h5 : (decide (e.etype = str "file") && hasPptExt e.name &&
          decide (toFileRecord e = r)) = decide (toFileRecord e = r) := by
        simp [h3, h4]
      rw [h5]
      by_cases hr : toFileRecord e = r
      · simp [hr, List.count_cons]
        omega
      · simp [hr, List.count_cons]
    · have hp : (decide (e.etype = str "file") && hasPptExt e.name &&
          decide (toFileRecord e = r)) = false := by
        have h4' : hasPptExt e.name = false := by
          cases hx : hasPptExt e.name
          · rfl
          · exact absurd hx h4
        rw [h4']
        simp
      rw [ih, List.countP_cons, hp]
      simp
    · have hp : (decide (e.etype = str "file") && hasPptExt e.name &&
          decide (toFileRecord e = r)) = false := by
        simp [h3]
      rw [ih, List.countP_cons, hp]
      simp

lemma countP_toFileRecord (e : Entry) (he : e.etype = str "file") (hm : hasPptExt e.name = true)
    (entries : List Entry) :
    entries.countP (fun e' => decide (e'.etype = str "file") && hasPptExt e'.name &&
      decide (toFileRecord e' = toFileRecord e)) = entries.count e := by
  induction entries with
  | nil => rfl
  | cons a l ih =>
    rw [List.countP_cons, List.count_cons, ih]
    congr 1
    by_cases ha : a = e
    · subst ha
      simp [he, hm]
    · have hp : (decide (a.etype = str "file") && hasPptExt a.name &&
          decide (toFileRecord a = toFileRecord e)) = false := by
        by_cases h1 : a.etype = str "file"
        · by_cases h2 : hasPptExt a.name = true
          · have h3 : toFileRecord a ≠ toFileRecord e :=
              fun hh => ha (toFileRecord_inj h1 he hh)
            simp [h1, h2, h3]
          · have h2' : hasPptExt a.name = false := by
              cases hx : hasPptExt a.name
              · rfl
              · exact absurd hx h2
            rw [h2']
            simp
        · simp [h1]
      rw [hp]
      simp [ha]

lemma walkAux_req_count (remote : Str → Resp) (d : Str) :
    ∀ (fuel : Nat) (stack visited reqs : List Str) (acc : List FileRecord),
      stack.count d + reqs.count d ≤ 1 →
      (d ∉ visited → stack.count d + reqs.count d = 0) →
      ((walkAux remote fuel stack visited reqs acc).1).count d ≤ 1 := by
  intro fuel
  induction fuel with
  | zero =>
    intro stack visited reqs acc h1 _
    cases stack with
    | nil => simpa [walkAux] using le_trans (Nat.le_add_left _ _) h1
    | cons current s => simpa [walkAux] using le_trans (Nat.le_add_left _ _) h1
  | succ n ih =>
    intro stack visited reqs acc h1 h2
    cases stack with
    | nil => simpa [walkAux] using le_trans (Nat.le_add_left _ _) h1
    | cons current s =>
      have e1 : (current :: s).count d = s.count d + (if current = d then 1 else 0) := by
        simp [List.count_cons]
      have e2 : (reqs ++ [current]).count d = reqs.count d + (if current = d then 1 else 0) := by
        simp [List.count_append, List.count_cons]
      simp only [walkAux]
      split_ifs with h404 herr
      · apply ih s visited (reqs ++ [current]) acc
        · rw [e2]
          rw [e1] at h1
          omega
        · intro hv
          have h0 := h2 hv
          rw [e1] at h0
          rw [e2]
          omega
      · show (reqs ++ [current]).count d ≤ 1
        rw [e2]
        rw [e1] at h1
        omega
      · by_cases hv : d ∈ visited
        · have hmono := (processEntries_stack_count d
            (jsonToList (remote current).json) s visited acc).1 hv
          apply ih _ _ _ _
          · rw [hmono.1, e2]
            rw [e1] at h1
            omega
          · intro hnv
            exact absurd hmono.2 hnv
        · have h0 := h2 hv
          rw [e1] at h0
          rcases (processEntries_stack_count d
            (jsonToList (remote current).json) s visited acc).2 hv with ⟨hc, hmem⟩ | ⟨hc, hmem⟩
          · apply ih _ _ _ _
            · rw [hc, e2]
              omega
            · intro _
              rw [hc, e2]
              omega
          · apply ih _ _ _ _
            · rw [hc, e2]
              omega
            · intro hnv
              exact absurd hmem hnv

lemma walkAux_file_once (remote : Str → Resp) (d : Str) (e : Entry)
    (he : e.etype = str "file") (hm : hasPptExt e.name = true)
    (honce : (jsonToList (remote d).json).count e = 1)
    (helse : ∀ p, p ≠ d → e ∉ jsonToList (remote p).json) :
    ∀ (fuel : Nat) (stack visited reqs : List Str) (acc : List FileRecord),
      ((reqs.count d = 0 ∧ acc.count (toFileRecord e) = 0 ∧ stack.count d ≤ 1 ∧
          (d ∉ visited → stack.count d = 0)) ∨
        (reqs.count d = 1 ∧ acc.count (toFileRecord e) ≤ 1 ∧ stack.count d = 0 ∧
          d ∈ visited)) →
      ∀ files, (walkAux remote fuel stack visited reqs acc).2 = WalkResult.ok files →
        files.count (toFileRecord e) ≤ 1 := by
  intro fuel
  induction fuel with
  | zero =>
    intro stack visited reqs acc hphase files hok
    cases stack with
    | nil =>
      simp only [walkAux, WalkResult.ok.injEq] at hok
      subst hok
      rcases hphase with ⟨-, h, -, -⟩ | ⟨-, h, -, -⟩
      · omega
      · exact h
    | cons current s => simp [walkAux] at hok
  | succ n ih =>
    intro stack visited reqs acc hphase files hok
    cases stack with
    | nil =>
      simp only [walkAux, WalkResult.ok.injEq] at hok
      subst hok
      rcases hphase with ⟨-, h, -, -⟩ | ⟨-, h, -, -⟩
      · omega
      · exact h
    | cons current s =>
      have e1 : (current :: s).count d = s.count d + (if current = d then 1 else 0) := by
        simp [List.count_cons]
      have e2 : (reqs ++ [current]).count d = reqs.count d + (if current = d then 1 else 0) := by
        simp [List.count_append, List.count_cons]
      simp only [walkAux] at hok
      split_ifs at hok with h404 herr
      · -- 404: skip current and continue
        by_cases hc : current = d
        · rcases hphase with ⟨ha1, ha2, ha3, ha4⟩ | ⟨hb1, hb2, hb3, hb4⟩
          · have hvis : d ∈ visited := by
              by_contra hv
              have := ha4 hv
              rw [e1] at this
              simp [hc] at this
            refine ih s visited (reqs ++ [current]) acc (Or.inr ⟨?_, ?_, ?_, hvis⟩) files hok
            · rw [e2, ha1]
              simp [hc]
            · omega
            · rw [e1] at ha3
              simp [hc] at ha3
              omega
          · rw [e1] at hb3
            simp [hc] at hb3
        · rcases hphase with ⟨ha1, ha2, ha3, ha4⟩ | ⟨hb1, hb2, hb3, hb4⟩
          · refine ih s visited (reqs ++ [current]) acc (Or.inl ⟨?_, ha2, ?_, ?_⟩) files hok
            · rw [e2, ha1]
              simp [hc]
            · rw [e1] at ha3
              omega
            · intro hv
              have := ha4 hv
              rw [e1] at this
              omega
          · refine ih s visited (reqs ++ [current]) acc (Or.inr ⟨?_, hb2, ?_, hb4⟩) files hok
            · rw [e2, hb1]
              simp [hc]
            · rw [e1] at hb3
              omega
      · -- non-404 success: process the listing of current
        have hacc := processEntries_acc_count (toFileRecord e)
          (jsonToList (remote current).json) s visited acc
        by_cases hc : current = d
        · rcases hphase with ⟨ha1, ha2, ha3, ha4⟩ | ⟨hb1, hb2, hb3, hb4⟩
          · have hvis : d ∈ visited := by
              by_contra hv
              have := ha4 hv
              rw [e1] at this
              simp [hc] at this
            have hstack := (processEntries_stack_count d
              (jsonToList (remote current).json) s visited acc).1 hvis
            refine ih _ _ (reqs ++ [current]) _ (Or.inr ⟨?_, ?_, ?_, hstack.2⟩) files hok
            · rw [e2, ha1]
              simp [hc]
            · rw [hacc, countP_toFileRecord e he hm, hc, honce, ha2]
            · rw [hstack.1]
              rw [e1] at ha3
              simp [hc] at ha3
              omega
          · rw [e1] at hb3
            simp [hc] at hb3
        · have hcount0 : (jsonToList (remote current).json).count e = 0 :=
            List.count_eq_zero.mpr (helse current hc)
          have hacc' : (processEntries s visited acc
              (jsonToList (remote current).json)).2.2.count (toFileRecord e) =
              acc.count (toFileRecord e) := by
            rw [hacc, countP_toFileRecord e he hm, hcount0]
            omega
          by_cases hv : d ∈ visited
          · have hstack := (processEntries_stack_count d
              (jsonToList (remote current).json) s visited acc).1 hv
            rcases hphase with ⟨ha1, ha2, ha3, ha4⟩ | ⟨hb1, hb2, hb3, hb4⟩
            · refine ih _ _ (reqs ++ [current]) _ (Or.inl ⟨?_, ?_, ?_, ?_⟩) files hok
              · rw [e2, ha1]
                simp [hc]
              · rw [hacc', ha2]
              · rw [hstack.1]
                rw [e1] at ha3
                omega
              · intro hnv
                exact absurd hstack.2 hnv
            · refine ih _ _ (reqs ++ [current]) _ (Or.inr ⟨?_, ?_, ?_, hstack.2⟩) files hok
              · rw [e2, hb1]
                simp [hc]
              · rw [hacc']
                exact hb2
              · rw [hstack.1]
                rw [e1] at hb3
                omega
          · rcases hphase with ⟨ha1, ha2, ha3, ha4⟩ | ⟨hb1, hb2, hb3, hb4⟩
            · have hs0 : s.count d = 0 := by
                have := ha4 hv
                rw [e1] at this
                omega
              rcases (processEntries_stack_count d
                (jsonToList (remote current).json) s visited acc).2 hv with
                ⟨hc1, hm1⟩ | ⟨hc1, hm1⟩
              · refine ih _ _ (reqs ++ [current]) _ (Or.inl ⟨?_, ?_, ?_, ?_⟩) files hok
                · rw [e2, ha1]
                  simp [hc]
                · rw [hacc', ha2]
                · rw [hc1, hs0]
                  omega
                · intro _
                  rw [hc1, hs0]
              · refine ih _ _ (reqs ++ [current]) _ (Or.inl ⟨?_, ?_, ?_, ?_⟩) files hok
                · rw [e2, ha1]
                  simp [hc]
                · rw [hacc', ha2]
                · rw [hc1, hs0]
                · intro hnv
                  exact absurd hm1 hnv
            · exact absurd hb4 hv

/-- C2: in a remote tree where the same subdirectory `d` is listed as a
child of two different parent directories (and, tree-ness, `d` is not
the start path itself and its file `e` is listed only under `d`), the
recursive walk requests `d` at most once and `d`'s matching file
appears at most once in the returned list. -/
theorem walk_duplicate_subdir_once (remote : Str → Resp) (start d : Str) (e ed1 ed2 : Entry)
    (p1 p2 : Str) (fuel : Nat)
    (hpp : p1 ≠ p2)
    (hed1 : ed1 ∈ jsonToList (remote p1).json) (hed1d : ed1.etype = str "dir")
    (hed1p : ed1.path = d)
    (hed2 : ed2 ∈ jsonToList (remote p2).json) (hed2d : ed2.etype = str "dir")
    (hed2p : ed2.path = d)
    (hroot : d ≠ start)
    (he : e.etype = str "file") (hm : hasPptExt e.name = true)
    (honce : (jsonToList (remote d).json).count e = 1)
    (helse : ∀ p, p ≠ d → e ∉ jsonToList (remote p).json) :
    ((walk_and_collect_ppts remote fuel start).1).count d ≤ 1 ∧
    ∀ files, (walk_and_collect_ppts remote fuel start).2 = WalkResult.ok files →
      files.count (toFileRecord e) ≤ 1 := by
  have hsd : start ≠ d := fun h => hroot h.symm
  have hstart : ([start] : List Str).count d = 0 := by
    simp [List.count_cons, hsd]
  constructor
  · apply walkAux_req_count remote d fuel [start] [] [] []
    · rw [hstart]
      simp
    · intro _
      rw [hstart]
      simp
  · intro files hf
    exact walkAux_file_once remote d e he hm honce helse fuel [start] [] [] []
      (Or.inl ⟨by simp, by simp, by rw [hstart]; omega, fun _ => hstart⟩) files hf

/-- C2 witness: in `dupRemote`, directory `d` is a child of both `a`
and `b`; the walk requests `d` once and returns its file once. -/
theorem walk_duplicate_subdir_once_witness :
    ((walk_and_collect_ppts dupRemote 10 (str "")).1).count (str "d") ≤ 1 ∧
    ∀ files, (walk_and_collect_ppts dupRemote 10 (str "")).2 = WalkResult.ok files →
      files.count (toFileRecord dEntry) ≤ 1 :=
  walk_duplicate_subdir_once dupRemote (str "") (str "d") dEntry (dirEntry (str "d"))
    (dirEntry (str "d")) (str "a") (str "b") 10 (by decide) (by decide) (by decide)
    (by decide) (by decide) (by decide) (by decide) (by decide) (by decide) (by decide)
    (by decide)
    (by
      intro p hp
      simp only [dupRemote]
      split_ifs with h1 h2 h3
      · decide
      · decide
      · decide
      · decide)
